import Mathlib

set_option maxHeartbeats 1000000

/- Shallow embedding of the FNNDSC/intent-server repository: two command-line
   text filters, `number_citations.py` and `fix_cites.py`.  Text is modelled as
   `List Char`.  Each Python regular expression is translated into the
   deterministic matcher that its backtracking semantics reduces to; the
   derivation is noted at each definition. -/

/-- Python whitespace: the character set matched by `\s` in `str` patterns and
stripped by `str.strip()`. -/
def pyIsSpace (c : Char) : Bool :=
  c == ' ' || c == '\t' || c == '\n' || c == '\x0b' || c == '\x0c' || c == '\r' ||
  c == '\x1c' || c == '\x1d' || c == '\x1e' || c == '\x1f' || c == '\x85' || c == '\xa0' ||
  c == '\u1680' || ('\u2000' ≤ c && c ≤ '\u200a') || c == '\u2028' || c == '\u2029' ||
  c == '\u202f' || c == '\u205f' || c == '\u3000'

/-- The line-boundary characters recognised by Python `str.splitlines`. -/
def isLineBreak (c : Char) : Bool :=
  c == '\n' || c == '\r' || c == '\x0b' || c == '\x0c' || c == '\x1c' ||
  c == '\x1d' || c == '\x1e' || c == '\x85' || c == '\u2028' || c == '\u2029'

/-- Worker for `pySplitlines`: `acc` is the current (partial) line.  A `"\r\n"`
pair is a single boundary; a boundary at the end of the input does not open a
new line. -/
def splitlinesGo : List Char → List Char → List (List Char)
  | acc, [] => [acc]
  | acc, '\r' :: '\n' :: rest =>
      if rest = [] then [acc] else acc :: splitlinesGo [] rest
  | acc, c :: rest =>
      if isLineBreak c then
        (if rest = [] then [acc] else acc :: splitlinesGo [] rest)
      else splitlinesGo (acc ++ [c]) rest

/-- Python `str.splitlines()`. -/
def pySplitlines : List Char → List (List Char)
  | [] => []
  | s => splitlinesGo [] s

/-- Python `str.strip()`: remove whitespace from both ends. -/
def pyStrip (s : List Char) : List Char :=
  ((s.dropWhile pyIsSpace).reverse.dropWhile pyIsSpace).reverse

/-- Match a literal token at the head of the input, returning the remainder. -/
def expect : List Char → List Char → Option (List Char)
  | [], s => some s
  | _ :: _, [] => none
  | p :: ps, c :: cs => if c = p then expect ps cs else none

/-- The heading literal `"== References"`. -/
def refsHeadingLit : List Char := "== References".toList

/-- Does the regex `^== References\s*$` (MULTILINE) match at this position?
With backtracking, a match at a line start exists iff the characters after the
literal and before the next `'\n'` (or the end of input) are all whitespace. -/
def refsHeadingAt (s : List Char) : Bool :=
  match expect refsHeadingLit s with
  | none => false
  | some rest => (rest.takeWhile (fun c => c ≠ '\n')).all pyIsSpace

/-- Does the regex `^==\s+[^=\s].*$` (MULTILINE) match at this position?
Greedy `\s+` reduces to the maximal whitespace run (which may cross newlines);
the run must be nonempty and be followed by a character other than `'='` (the
follower is non-whitespace by maximality, and `.*$` always succeeds). -/
def nextHeadingAt (s : List Char) : Bool :=
  match s with
  | '=' :: '=' :: rest =>
      (!(rest.takeWhile pyIsSpace).isEmpty) &&
        (match rest.dropWhile pyIsSpace with
         | c :: _ => c ≠ '='
         | [] => false)
  | _ => false

/-- Scan the positions that follow a `'\n'`, left to right, for the first one
satisfying `p`; return the consumed prefix and the matching suffix. -/
def findLSGo (p : List Char → Bool) : List Char → Option (List Char × List Char)
  | [] => none
  | c :: cs =>
      if c = '\n' && p cs then some ([c], cs)
      else (findLSGo p cs).map (fun q => (c :: q.1, q.2))

/-- Model of `re.search` for a `^`-anchored MULTILINE pattern: try position 0, then every
position after a `'\n'`, left to right. -/
def findLineStart (p : List Char → Bool) (s : List Char) : Option (List Char × List Char) :=
  if p s then some ([], s) else findLSGo p s

/-- Function `split_sections` from `number_citations.py`: split the document into
(body, references block, trailing block).  The second search runs on
`text[start + 1 :]`, whose position 0 also counts as a line start. -/
def split_sections (text : List Char) : List Char × List Char × List Char :=
  match findLineStart refsHeadingAt text with
  | none => (text, [], [])
  | some (before, rest) =>
      match rest with
      | [] => (before, [], [])
      | r0 :: rtail =>
          match findLineStart nextHeadingAt rtail with
          | none => (before, rest, [])
          | some (mid, after) => (before, r0 :: mid, after)

/-- Leftmost match of `\[\[([^\]]+)\]\]` anchored at the head of the input:
`[[`, then the maximal nonempty run of non-`]` characters, then `]]` (shorter
runs cannot satisfy the pattern, since every run character differs from `]`).
Returns (content, remainder after the closing `]]`). -/
def anchorAt (s : List Char) : Option (List Char × List Char) :=
  match s with
  | '[' :: '[' :: rest =>
      let content := rest.takeWhile (fun c => c ≠ ']')
      if content = [] then none
      else
        match rest.dropWhile (fun c => c ≠ ']') with
        | ']' :: ']' :: r2 => some (content, r2)
        | _ => none
  | _ => none

/-- Model of `re.search(r"\[\[([^\]]+)\]\]", line)`: the leftmost anchor match, as
(prefix before the match, content, suffix after the match). -/
def findAnchor : List Char → Option (List Char × List Char × List Char)
  | [] => none
  | c :: cs =>
      match anchorAt (c :: cs) with
      | some (k, rest) => some ([], k, rest)
      | none => (findAnchor cs).map (fun q => (c :: q.1, q.2.1, q.2.2))

/-- Worker for `parse_reference_keys`: fold over the lines, recording the
stripped content of each line's first anchor the first time it is seen. -/
def parseKeysGo : List (List Char) → List (List Char) → List (List Char)
  | acc, [] => acc
  | acc, line :: rest =>
      match findAnchor line with
      | some (_, k, _) =>
          let key := pyStrip k
          if key ∈ acc then parseKeysGo acc rest else parseKeysGo (acc ++ [key]) rest
      | none => parseKeysGo acc rest

/-- Function `parse_reference_keys` from `number_citations.py` (the ordered key list;
the `key_to_num` dict is recovered by `keyToNum` below, since the source keeps
`key_to_num[key] = len(keys)` in lockstep with `keys.append(key)`). -/
def parse_reference_keys (refs : List Char) : List (List Char) :=
  parseKeysGo [] (pySplitlines refs)

/-- Worker for `keyToNum`: 1-based position of the first occurrence. -/
def keyToNumGo (k : List Char) : List (List Char) → Nat → Option Nat
  | [], _ => none
  | key :: rest, i => if key = k then some i else keyToNumGo k rest (i + 1)

/-- The `key_to_num` mapping: a key's 1-based rank in the ordered key list. -/
def keyToNum (keys : List (List Char)) (k : List Char) : Option Nat :=
  keyToNumGo k keys 1

/-- Match `<<[^>]+>>` at the head of the input: `<<`, the maximal nonempty run
of non-`>` characters, then `>>` (shorter runs cannot satisfy the pattern).
Returns (content, remainder). -/
def citeAt (s : List Char) : Option (List Char × List Char) :=
  match s with
  | '<' :: '<' :: rest =>
      let content := rest.takeWhile (fun c => c ≠ '>')
      if content = [] then none
      else
        match rest.dropWhile (fun c => c ≠ '>') with
        | '>' :: '>' :: r2 => some (content, r2)
        | _ => none
  | _ => none

/-- The greedy iteration `(?:\s*,\s*<<[^>]+>>)*`: each round consumes the
maximal whitespace run, a comma, the maximal whitespace run, and one `<<key>>`
(each `\s*` reduces to the maximal run because the follower it needs - `,` or
`<` - is not whitespace).  Returns (contents, consumed text, remainder).  The
fuel argument strictly exceeds the number of possible rounds at every call
site, since every round consumes at least one character. -/
def citeTailF : Nat → List Char → List (List Char) × List Char × List Char
  | 0, s => ([], [], s)
  | n + 1, s =>
      let w1 := s.takeWhile pyIsSpace
      match s.dropWhile pyIsSpace with
      | c :: r1 =>
          if c = ',' then
            let w2 := r1.takeWhile pyIsSpace
            match citeAt (r1.dropWhile pyIsSpace) with
            | some (ck, rest) =>
                let q := citeTailF n rest
                (ck :: q.1, w1 ++ ',' :: (w2 ++ '<' :: '<' :: (ck ++ '>' :: '>' :: q.2.1)), q.2.2)
            | none => ([], [], s)
          else ([], [], s)
      | [] => ([], [], s)

/-- Match the full citation-run pattern `<<[^>]+>>(?:\s*,\s*<<[^>]+>>)*` at the
head of the input.  Returns (raw contents, matched text, remainder). -/
def citeRunAt (s : List Char) : Option (List (List Char) × List Char × List Char) :=
  match citeAt s with
  | none => none
  | some (c, rest) =>
      let q := citeTailF rest.length rest
      some (c :: q.1, '<' :: '<' :: (c ++ '>' :: '>' :: q.2.1), q.2.2)

/-- What `re.findall(r"<<\s*([^>]+?)\s*>>", group)` extracts from one `<<c>>`
block of the run: the content stripped of surrounding whitespace, except that
an all-whitespace content yields its last character (leading `\s*` backtracks
by one so that the lazy group can be nonempty). -/
def citeKeyOf (c : List Char) : List Char :=
  let t := pyStrip c
  if t = [] then c.drop (c.length - 1) else t

/-- Python `str(n)` for the natural citation numbers. -/
def numToChars (n : Nat) : List Char := (Nat.repr n).toList

/-- Worker for `replace_citations`: the scan performed by `pattern.sub(repl,
body)`.  At each position try the run pattern; on a match, emit `repl`'s result
(the bracketed number list, or the group unchanged if any extracted key is
unknown) and resume after the match; otherwise copy one character.  Fuel
decreases by 1 per step and every step consumes at least one input character,
so `body.length` fuel is always enough. -/
def replaceCitationsGoF (m : List Char → Option Nat) : Nat → List Char → List Char
  | 0, s => s
  | _ + 1, [] => []
  | n + 1, c :: cs =>
      match citeRunAt (c :: cs) with
      | some (contents, g, rest) =>
          let keys := contents.map citeKeyOf
          if keys.all (fun k => (m k).isSome) then
            '[' :: (List.intercalate [',', ' ']
                (keys.map (fun k => numToChars ((m k).getD 0))) ++
              ']' :: replaceCitationsGoF m n rest)
          else g ++ replaceCitationsGoF m n rest
      | none => c :: replaceCitationsGoF m n cs

/-- Function `replace_citations` from `number_citations.py`. -/
def replace_citations (body : List Char) (m : List Char → Option Nat) : List Char :=
  replaceCitationsGoF m body.length body

/-- One line of `renumber_references`: if the line has an anchor whose stripped
key is ranked, replace the first `\[\[[^\]]+\]\]` match (exactly the found
anchor) by the bracketed rank; otherwise keep the line. -/
def renumberLine (f : List Char → Option Nat) (line : List Char) : List Char :=
  match findAnchor line with
  | none => line
  | some (pre, k, suf) =>
      match f (pyStrip k) with
      | none => line
      | some n => pre ++ '[' :: (numToChars n ++ ']' :: suf)

/-- Function `renumber_references` from `number_citations.py`: map over
`refs.splitlines()` and rejoin with `"\n"`. -/
def renumber_references (refs : List Char) (keys : List (List Char)) : List Char :=
  List.intercalate ['\n'] ((pySplitlines refs).map (renumberLine (keyToNum keys)))

/-- The whole transformation performed by `main` of `number_citations.py` on
the input text (split; pass through unchanged if there is no references block;
otherwise rewrite the body, renumber the references, and concatenate). -/
def renumberDoc (text : List Char) : List Char :=
  match split_sections text with
  | (before, refs, after) =>
      if refs = [] then text
      else
        let keys := parse_reference_keys refs
        replace_citations before (keyToNum keys) ++ (renumber_references refs keys ++ after)

/-- Split on `'\n'` alone: the lines as seen by a MULTILINE `^...$` pattern. -/
def splitNL : List Char → List (List Char)
  | [] => [[]]
  | c :: cs =>
      if c = '\n' then [] :: splitNL cs
      else
        match splitNL cs with
        | l :: ls => (c :: l) :: ls
        | [] => [[c]]

/-- A whole line (no `'\n'`) that the References-heading regex accepts. -/
def lineIsRefsHeading (l : List Char) : Bool :=
  match expect refsHeadingLit l with
  | none => false
  | some rest => rest.all pyIsSpace

/-- The stream of per-line anchor keys of a references block, in line order,
duplicates included (first anchor of each line, stripped). -/
def anchorKeysOf (refs : List Char) : List (List Char) :=
  (pySplitlines refs).filterMap (fun line => (findAnchor line).map (fun q => pyStrip q.2.1))

/-- Modelled from the spec: "the first occurrence of each distinct identifier
is recorded ... duplicates are ignored".  Spec-side first-occurrence
deduplication, for comparison with `parse_reference_keys`. -/
def specFirstOccurrences : List (List Char) → List (List Char)
  | [] => []
  | k :: t => k :: specFirstOccurrences (t.filter (fun x => x ≠ k))
termination_by l => l.length
decreasing_by
  exact Nat.lt_succ_of_le (List.length_filter_le _ _)

/-- The literal `\textbackslash`. -/
def textbackslashLit : List Char := "\\textbackslash".toList

/-- The literal `cite`. -/
def citeWordLit : List Char := "cite".toList

/-- The literal `\textbackslash\cite`. -/
def tbCiteLit : List Char := "\\textbackslash\\cite".toList

/-- The literal `\cite` followed by an opening brace. -/
def citeOpenLit : List Char := ['\\', 'c', 'i', 't', 'e', '{']

/-- The common tail `\\?\{([^}]+)\\?\}` of the two escaped-macro patterns of
`fix_cites.py`.  `\\?\{` consumes a backslash exactly when one stands directly
before the `{`.  The greedy group `([^}]+)` takes the maximal nonempty non-`}`
run; the following `\\?` then matches empty (backtracking tries the longest
group first, so a trailing backslash stays inside the group - the cleanup pass
exists precisely because of this), and `\}` requires a `}` right after the run.
Returns (group, remainder). -/
def braceArgAt (s : List Char) : Option (List Char × List Char) :=
  let s4 := match expect ['\\'] s with
            | some t => t
            | none => s
  match expect ['{'] s4 with
  | none => none
  | some s5 =>
      let g := s5.takeWhile (fun c => c ≠ '}')
      if g = [] then none
      else
        match expect ['}'] (s5.dropWhile (fun c => c ≠ '}')) with
        | none => none
        | some s6 => some (g, s6)

/-- Matcher for `re.compile(r"\\textbackslash\s+cite\\?\{([^}]+)\\?\}")` of
`fix_cites.py`, paired with its replacement `r"\\cite{\1}"`.  Greedy `\s+`
reduces to the maximal whitespace run, which must be nonempty (its required
follower `cite` starts with a non-whitespace character). -/
def p1At (s : List Char) : Option (List Char × List Char) :=
  match expect textbackslashLit s with
  | none => none
  | some s1 =>
      if (s1.takeWhile pyIsSpace).isEmpty then none
      else
        match expect citeWordLit (s1.dropWhile pyIsSpace) with
        | none => none
        | some s3 => (braceArgAt s3).map (fun q => (citeOpenLit ++ (q.1 ++ ['}']), q.2))

/-- Matcher for `re.compile(r"\\textbackslash\\cite\\?\{([^}]+)\\?\}")` of
`fix_cites.py`, paired with its replacement `r"\\cite{\1}"`. -/
def p2At (s : List Char) : Option (List Char × List Char) :=
  match expect tbCiteLit s with
  | none => none
  | some s3 => (braceArgAt s3).map (fun q => (citeOpenLit ++ (q.1 ++ ['}']), q.2))

/-- Matcher for the cleanup `re.sub(r"\\cite\{([^}]*)\\\}", r"\\cite{\1}", text)`
of `fix_cites.py`: after `\cite` and `{`, the greedy `([^}]*)` takes the
maximal non-`}` run; the mandatory `\\` before `\}` forces that run to end with
a backslash, which the replacement drops. -/
def p3At (s : List Char) : Option (List Char × List Char) :=
  match expect citeOpenLit s with
  | none => none
  | some s1 =>
      let g := s1.takeWhile (fun c => c ≠ '}')
      if g.getLast? = some '\\' then
        match expect ['}'] (s1.dropWhile (fun c => c ≠ '}')) with
        | none => none
        | some s6 => some (citeOpenLit ++ (g.dropLast ++ ['}']), s6)
      else none

/-- The scan performed by `pat.sub(rep, text)`: at each position, if the
matcher fires, emit its replacement and resume after the match (matches do not
overlap); otherwise copy one character.  Fuel decreases by 1 per step, and all
matchers used here consume at least one character, so `text.length` fuel is
always enough. -/
def subScanF (f : List Char → Option (List Char × List Char)) : Nat → List Char → List Char
  | 0, s => s
  | _ + 1, [] => []
  | n + 1, c :: cs =>
      match f (c :: cs) with
      | some (r, t) => r ++ subScanF f n t
      | none => c :: subScanF f n cs

/-- Model of `pat.sub(rep, text)` where `f` decides a match at a position and produces
its replacement text. -/
def pySub (f : List Char → Option (List Char × List Char)) (s : List Char) : List Char :=
  subScanF f s.length s

/-- The text transformation of `main` in `fix_cites.py`: the two escaped-macro
substitutions in order, then the residual-backslash cleanup. -/
def fix_cites_transform (text : List Char) : List Char :=
  pySub p3At (pySub p2At (pySub p1At text))

/-- Is there a match of `f` at some position of `s`? -/
def existsMatch (f : List Char → Option (List Char × List Char)) : List Char → Bool
  | [] => (f []).isSome
  | c :: cs => (f (c :: cs)).isSome || existsMatch f cs

/-- Outcome of one CLI invocation: exit code, whether a usage message went to
standard error, the files read, the files written (path and content), and the
text written to standard output. -/
structure CliOutcome where
  exitCode : Nat
  usageToStderr : Bool
  filesRead : List (List Char)
  filesWritten : List (List Char × List Char)
  stdoutText : List Char
deriving DecidableEq

/-- Entry point `main` of `fix_cites.py`: `argv` is `sys.argv` (program name included), and
`readF` models the file system.  A wrong argument count prints usage to
standard error and exits with status 1 before any file access; otherwise the
file is read, transformed, and overwritten in place. -/
def fix_cites_main (argv : List (List Char)) (readF : List Char → List Char) : CliOutcome :=
  if argv.length ≠ 2 then ⟨1, true, [], [], []⟩
  else
    let path := argv.getD 1 []
    ⟨0, false, [path], [(path, fix_cites_transform (readF path))], []⟩

/-- Entry point `main` of `number_citations.py`: more than one argument prints usage to
standard error and exits with status 1 before any I/O; no argument or `-`
reads standard input; otherwise the named file is read.  The transformed text
goes to standard output and no file is written. -/
def number_citations_main (argv : List (List Char)) (stdinText : List Char)
    (readF : List Char → List Char) : CliOutcome :=
  if argv.length > 2 then ⟨1, true, [], [], []⟩
  else if argv.length = 1 || argv.getD 1 [] = ['-'] then
    ⟨0, false, [], [], renumberDoc stdinText⟩
  else
    let path := argv.getD 1 []
    ⟨0, false, [path], [], renumberDoc (readF path)⟩

/-- Input shape for the body-rewrite claims: the tail of a citation run,
`w1,w2<<k>> w1',w2'<<k'>> ...` - each round is whitespace, a comma, whitespace,
and one cross-reference marker. -/
def mkTailText : List ((List Char × List Char) × List Char) → List Char
  | [] => []
  | ((w1, w2), k) :: rest =>
      w1 ++ ',' :: (w2 ++ '<' :: '<' :: (k ++ '>' :: '>' :: mkTailText rest))

/-- Input shape for the body-rewrite claims: a full comma-separated citation
run `<<k>>w1,w2<<k'>>...`. -/
def mkRun (k : List Char) (ks : List ((List Char × List Char) × List Char)) : List Char :=
  '<' :: '<' :: (k ++ '>' :: '>' :: mkTailText ks)

/-- Input shape for the escaped-macro claim: the escape token, then `sep`
(whitespace for the `\textbackslash cite{...}` form, one backslash for the
`\textbackslash\cite{...}` form), then `cite`, then `oePart` (empty, or a
stray backslash before the opening brace), the key, and `stPart` (empty, or a
stray backslash before the closing brace). -/
def escCiteForm (sep oePart stPart k : List Char) : List Char :=
  '\\' :: ("textbackslash".toList ++ (sep ++ (citeWordLit ++
    (oePart ++ '{' :: (k ++ (stPart ++ ['}']))))))

/- ------------------------------------------------------------------ -/
/- Helper lemmas: `expect`, `takeWhile`, `dropWhile`                  -/
/- ------------------------------------------------------------------ -/

theorem expect_eq_some {p : List Char} : ∀ {s r : List Char}, expect p s = some r → s = p ++ r := by
  induction p with
  | nil => intro s r h; simpa [expect] using h
  | cons a ps ih =>
    intro s r h
    cases s with
    | nil => simp [expect] at h
    | cons c cs =>
      simp only [expect] at h
      by_cases hc : c = a
      · subst hc
        simp only [if_pos rfl] at h
        simpa using ih h
      · simp [if_neg hc] at h

theorem expect_append (p r : List Char) : expect p (p ++ r) = some r := by
  induction p with
  | nil => simp [expect]
  | cons a ps ih => simp [expect, ih]

theorem expect_head {a : Char} {p s r : List Char} (h : expect (a :: p) s = some r) :
    ∃ t, s = a :: t := by
  have := expect_eq_some h
  exact ⟨p ++ r, by simpa using this⟩

theorem takeWhile_append_all {p : Char → Bool} {w : List Char} (t : List Char)
    (hw : ∀ c ∈ w, p c = true) : (w ++ t).takeWhile p = w ++ t.takeWhile p := by
  induction w with
  | nil => simp
  | cons a w ih =>
    have ha : p a = true := hw a (by simp)
    simp only [List.cons_append, List.takeWhile_cons, ha, if_true]
    simp [ih fun c hc => hw c (by simp [hc])]

theorem dropWhile_append_all {p : Char → Bool} {w : List Char} (t : List Char)
    (hw : ∀ c ∈ w, p c = true) : (w ++ t).dropWhile p = t.dropWhile p := by
  induction w with
  | nil => simp
  | cons a w ih =>
    have ha : p a = true := hw a (by simp)
    simp only [List.cons_append, List.dropWhile_cons, ha, if_true]
    exact ih fun c hc => hw c (by simp [hc])

theorem takeWhile_append_stop {p : Char → Bool} {w : List Char} {c₀ : Char} (t : List Char)
    (hw : ∀ c ∈ w, p c = true) (hc : p c₀ = false) :
    (w ++ c₀ :: t).takeWhile p = w := by
  rw [takeWhile_append_all (c₀ :: t) hw]
  simp [List.takeWhile_cons, hc]

theorem dropWhile_append_stop {p : Char → Bool} {w : List Char} {c₀ : Char} (t : List Char)
    (hw : ∀ c ∈ w, p c = true) (hc : p c₀ = false) :
    (w ++ c₀ :: t).dropWhile p = c₀ :: t := by
  rw [dropWhile_append_all (c₀ :: t) hw]
  simp [List.dropWhile_cons, hc]

/- ------------------------------------------------------------------ -/
/- Lemmas on the citation-run matcher                                 -/
/- ------------------------------------------------------------------ -/


theorem citeAt_run {k r : List Char} (hk : k ≠ []) (hkc : ∀ c ∈ k, c ≠ '>') :
    citeAt ('<' :: '<' :: (k ++ '>' :: '>' :: r)) = some (k, r) := by
  have hall : ∀ c ∈ k, (fun c : Char => decide (c ≠ '>')) c = true := by
    intro c hc; simpa using hkc c hc
  have h1 : (k ++ '>' :: '>' :: r).takeWhile (fun c => c ≠ '>') = k :=
    takeWhile_append_stop _ hall (by simp)
  have h2 : (k ++ '>' :: '>' :: r).dropWhile (fun c => c ≠ '>') = '>' :: '>' :: r :=
    dropWhile_append_stop _ hall (by simp)
  simp only [citeAt]
  rw [h1, h2]
  simp [hk]

theorem citeAt_head {s : List Char} {q : List Char × List Char} (h : citeAt s = some q) :
    ∃ t, s = '<' :: '<' :: t := by
  unfold citeAt at h
  split at h
  · rename_i rest
    exact ⟨rest, rfl⟩
  · exact absurd h (by simp)

theorem citeAt_decomp {s : List Char} {c r : List Char} (h : citeAt s = some (c, r)) :
    s = '<' :: '<' :: (c ++ '>' :: '>' :: r) ∧ c ≠ [] := by
  unfold citeAt at h
  split at h
  · rename_i rest
    by_cases hc : rest.takeWhile (fun c => c ≠ '>') = []
    · rw [if_pos hc] at h; exact absurd h (by simp)
    · rw [if_neg hc] at h
      split at h
      · rename_i r2 hdw
        have hs : rest.takeWhile (fun c => c ≠ '>') ++ rest.dropWhile (fun c => c ≠ '>') = rest :=
          List.takeWhile_append_dropWhile _ _
        injection h with h'
        injection h' with hcc hrr
        have hrest : rest = c ++ '>' :: '>' :: r := by
          rw [← hs, hdw, hcc, hrr]
        constructor
        · rw [hrest]
        · rw [← hcc]; exact hc
      · exact absurd h (by simp)
  · exact absurd h (by simp)

theorem citeTailF_stop {v : List Char} (hv : ∀ c ∈ v, c ≠ '<') (n : Nat) :
    citeTailF n v = ([], [], v) := by
  cases n with
  | zero => rfl
  | succ m =>
    simp only [citeTailF]
    cases hdw : v.dropWhile pyIsSpace with
    | nil => rfl
    | cons c r1 =>
      simp only []
      by_cases hc : c = ','
      · simp only [if_pos hc]
        cases hq : citeAt (r1.dropWhile pyIsSpace) with
        | none => rfl
        | some q =>
          obtain ⟨t, ht⟩ := citeAt_head hq
          have hlt : '<' ∈ v := by
            have h1 : '<' ∈ r1.dropWhile pyIsSpace := by rw [ht]; simp
            have h2 : '<' ∈ r1 := (List.dropWhile_sublist _).mem h1
            have h3 : '<' ∈ v.dropWhile pyIsSpace := by rw [hdw]; simp [h2]
            exact (List.dropWhile_sublist _).mem h3
          exact absurd rfl (hv '<' hlt)
      · simp only [if_neg hc]

theorem mkTailText_length (ks : List ((List Char × List Char) × List Char)) :
    ks.length ≤ (mkTailText ks).length := by
  induction ks with
  | nil => simp [mkTailText]
  | cons e rest ih =>
    obtain ⟨⟨w1, w2⟩, k⟩ := e
    simp only [mkTailText, List.length_cons, List.length_append]
    omega

theorem citeTailF_run {v : List Char} (hv : ∀ c ∈ v, c ≠ '<') :
    ∀ (ks : List ((List Char × List Char) × List Char)) (n : Nat),
    (∀ e ∈ ks, (∀ c ∈ e.1.1, pyIsSpace c = true) ∧ (∀ c ∈ e.1.2, pyIsSpace c = true) ∧
       e.2 ≠ [] ∧ (∀ c ∈ e.2, c ≠ '>')) →
    ks.length ≤ n →
    citeTailF n (mkTailText ks ++ v) = (ks.map (fun e => e.2), mkTailText ks, v) := by
  intro ks
  induction ks with
  | nil => intro n _ _; simpa [mkTailText] using citeTailF_stop hv n
  | cons e rest ih =>
    intro n hks hn
    obtain ⟨⟨w1, w2⟩, k⟩ := e
    obtain ⟨hw1, hw2, hkne, hkgt⟩ := hks ((w1, w2), k) (List.mem_cons_self _ _)
    cases n with
    | zero => simp at hn
    | succ m =>
      have hshape : mkTailText (((w1, w2), k) :: rest) ++ v =
          w1 ++ ',' :: (w2 ++ '<' :: '<' :: (k ++ '>' :: '>' :: (mkTailText rest ++ v))) := by
        simp [mkTailText, List.append_assoc]
      rw [hshape]
      simp only [citeTailF]
      have htw1 : (w1 ++ ',' :: (w2 ++ '<' :: '<' :: (k ++ '>' :: '>' :: (mkTailText rest ++ v)))).takeWhile pyIsSpace = w1 :=
        takeWhile_append_stop _ hw1 (by decide)
      have hdw1 : (w1 ++ ',' :: (w2 ++ '<' :: '<' :: (k ++ '>' :: '>' :: (mkTailText rest ++ v)))).dropWhile pyIsSpace = ',' :: (w2 ++ '<' :: '<' :: (k ++ '>' :: '>' :: (mkTailText rest ++ v))) :=
        dropWhile_append_stop _ hw1 (by decide)
      simp only [htw1, hdw1]
      have htw2 : (w2 ++ '<' :: '<' :: (k ++ '>' :: '>' :: (mkTailText rest ++ v))).takeWhile pyIsSpace = w2 :=
        takeWhile_append_stop _ hw2 (by decide)
      have hdw2 : (w2 ++ '<' :: '<' :: (k ++ '>' :: '>' :: (mkTailText rest ++ v))).dropWhile pyIsSpace = '<' :: '<' :: (k ++ '>' :: '>' :: (mkTailText rest ++ v)) :=
        dropWhile_append_stop _ hw2 (by decide)
      simp only [if_pos, htw2, hdw2, citeAt_run hkne hkgt]
      have hm : rest.length ≤ m := by
        simp only [List.length_cons] at hn
        omega
      rw [ih m (fun e he => hks e (List.mem_cons_of_mem _ he)) hm]
      simp [mkTailText, List.append_assoc]

theorem citeRunAt_run {k v : List Char} {ks : List ((List Char × List Char) × List Char)}
    (hk : k ≠ []) (hkc : ∀ c ∈ k, c ≠ '>') (hv : ∀ c ∈ v, c ≠ '<')
    (hks : ∀ e ∈ ks, (∀ c ∈ e.1.1, pyIsSpace c = true) ∧ (∀ c ∈ e.1.2, pyIsSpace c = true) ∧
       e.2 ≠ [] ∧ (∀ c ∈ e.2, c ≠ '>')) :
    citeRunAt (mkRun k ks ++ v) = some (k :: ks.map (fun e => e.2), mkRun k ks, v) := by
  have hshape : mkRun k ks ++ v = '<' :: '<' :: (k ++ '>' :: '>' :: (mkTailText ks ++ v)) := by
    simp [mkRun, List.append_assoc]
  rw [hshape]
  simp only [citeRunAt]
  rw [citeAt_run hk hkc]
  have hlen : ks.length ≤ (mkTailText ks ++ v).length := by
    have := mkTailText_length ks
    simp only [List.length_append]
    omega
  simp only [citeTailF_run hv ks _ hks hlen]
  simp [mkRun]

theorem citeRunAt_head {s : List Char} {q : List (List Char) × List Char × List Char}
    (h : citeRunAt s = some q) : ∃ t, s = '<' :: '<' :: t := by
  simp only [citeRunAt] at h
  cases hq : citeAt s with
  | none => rw [hq] at h; exact absurd h (by simp)
  | some p => exact citeAt_head hq

theorem rc_clean {m : List Char → Option Nat} {s : List Char} (hs : ∀ c ∈ s, c ≠ '<') :
    ∀ n, replaceCitationsGoF m n s = s := by
  induction s with
  | nil => intro n; cases n <;> rfl
  | cons c cs ih =>
    intro n
    cases n with
    | zero => rfl
    | succ n' =>
      simp only [replaceCitationsGoF]
      cases hq : citeRunAt (c :: cs) with
      | some q =>
        obtain ⟨t, ht⟩ := citeRunAt_head hq
        injection ht with h1 _
        exact absurd h1 (hs c (List.mem_cons_self c cs))
      | none =>
        show c :: replaceCitationsGoF m n' cs = c :: cs
        rw [ih (fun x hx => hs x (List.mem_cons_of_mem c hx)) n']

theorem rc_skip {m : List Char → Option Nat} {u : List Char} (hu : ∀ c ∈ u, c ≠ '<') :
    ∀ (n : Nat) (w : List Char),
    replaceCitationsGoF m n (u ++ w) = u ++ replaceCitationsGoF m (n - u.length) w := by
  induction u with
  | nil => intro n w; simp
  | cons c u' ih =>
    intro n w
    cases n with
    | zero =>
      show (c :: u' ++ w) = (c :: u') ++ replaceCitationsGoF m (0 - (c :: u').length) w
      rw [Nat.zero_sub]
      rfl
    | succ n' =>
      simp only [List.cons_append, List.length_cons, Nat.succ_sub_succ, replaceCitationsGoF]
      cases hq : citeRunAt (c :: (u' ++ w)) with
      | some q =>
        obtain ⟨t, ht⟩ := citeRunAt_head hq
        injection ht with h1 _
        exact absurd h1 (hu c (List.mem_cons_self c u'))
      | none =>
        show c :: replaceCitationsGoF m n' (u' ++ w) = c :: (u' ++ replaceCitationsGoF m (n' - u'.length) w)
        rw [ih (fun x hx => hu x (List.mem_cons_of_mem c hx)) n' w]

theorem rc_step {m : List Char → Option Nat} {n : Nat} {s : List Char}
    {q : List (List Char) × List Char × List Char}
    (h : citeRunAt s = some q) (hn : 0 < n) :
    replaceCitationsGoF m n s =
      if (q.1.map citeKeyOf).all (fun k => (m k).isSome) then
        '[' :: (List.intercalate [',', ' ']
            ((q.1.map citeKeyOf).map (fun k => numToChars ((m k).getD 0))) ++
          ']' :: replaceCitationsGoF m (n - 1) q.2.2)
      else q.2.1 ++ replaceCitationsGoF m (n - 1) q.2.2 := by
  obtain ⟨t, ht⟩ := citeRunAt_head h
  subst ht
  obtain ⟨cs, g, rest⟩ := q
  cases n with
  | zero => exact absurd hn (by simp)
  | succ n' =>
    simp only [replaceCitationsGoF, Nat.succ_sub_one]
    rw [h]

theorem citeKeyOf_eq_self {k : List Char} (hk : k ≠ []) (hs : pyStrip k = k) :
    citeKeyOf k = k := by
  unfold citeKeyOf
  rw [hs]
  simp [hk]

theorem map_citeKeyOf_eq {ks : List ((List Char × List Char) × List Char)}
    (hks : ∀ e ∈ ks, e.2 ≠ [] ∧ pyStrip e.2 = e.2) :
    (ks.map (fun e => e.2)).map citeKeyOf = ks.map (fun e => e.2) := by
  induction ks with
  | nil => rfl
  | cons e rest ih =>
    simp only [List.map_cons]
    rw [citeKeyOf_eq_self (hks e (List.mem_cons_self _ _)).1 (hks e (List.mem_cons_self _ _)).2,
      ih (fun x hx => hks x (List.mem_cons_of_mem _ hx))]

/-- C1: for every body and key-to-number mapping, a maximal run of `<<id>>`
markers separated by commas and optional whitespace, all of whose identifiers
are in the mapping, is replaced by a single bracketed, comma-separated list of
the corresponding numbers in left-to-right order.  The context `u`/`v` around
the run is marker-free (no `<`), the identifiers are nonempty, free of `>` and
of surrounding whitespace, and the separators are whitespace-comma-whitespace. -/
theorem c1_body_run_numbering (m : List Char → Option Nat) (u v k : List Char)
    (ks : List ((List Char × List Char) × List Char))
    (hu : ∀ c ∈ u, c ≠ '<') (hv : ∀ c ∈ v, c ≠ '<')
    (hk : k ≠ []) (hkgt : ∀ c ∈ k, c ≠ '>') (hkst : pyStrip k = k)
    (hks : ∀ e ∈ ks, (∀ c ∈ e.1.1, pyIsSpace c = true) ∧ (∀ c ∈ e.1.2, pyIsSpace c = true) ∧
        e.2 ≠ [] ∧ (∀ c ∈ e.2, c ≠ '>') ∧ pyStrip e.2 = e.2)
    (hm : ∀ key ∈ k :: ks.map (fun e => e.2), (m key).isSome = true) :
    replace_citations (u ++ (mkRun k ks ++ v)) m =
      u ++ ('[' :: (List.intercalate [',', ' ']
          ((k :: ks.map (fun e => e.2)).map (fun key => numToChars ((m key).getD 0))) ++
        ']' :: v)) := by
  unfold replace_citations
  rw [rc_skip hu]
  have hrun := @citeRunAt_run k v ks hk hkgt hv
    (fun e he => ⟨(hks e he).1, (hks e he).2.1, (hks e he).2.2.1, (hks e he).2.2.2.1⟩)
  have hfuel : 0 < (u ++ (mkRun k ks ++ v)).length - u.length := by
    simp only [List.length_append, mkRun, List.length_cons]
    omega
  rw [rc_step hrun hfuel]
  have hmapeq : ((k :: ks.map (fun e => e.2)).map citeKeyOf) = k :: ks.map (fun e => e.2) := by
    simp only [List.map_cons]
    rw [citeKeyOf_eq_self hk hkst,
      map_citeKeyOf_eq (fun e he => ⟨(hks e he).2.2.1, (hks e he).2.2.2.2⟩)]
  simp only [hmapeq]
  have hcond : (k :: ks.map (fun e => e.2)).all (fun key => (m key).isSome) = true :=
    List.all_eq_true.mpr hm
  rw [if_pos hcond, rc_clean hv]

/-- Witness for C1: `<<a>>, <<b>>, <<c>>` with a→1, b→2, c→3 becomes `[1, 2, 3]`. -/
theorem c1_body_run_numbering_witness :
    replace_citations
      ("see ".toList ++ (mkRun ['a'] [(([], [' ']), ['b']), (([], [' ']), ['c'])] ++ ".".toList))
      (fun key => if key = ['a'] then some 1 else if key = ['b'] then some 2
                  else if key = ['c'] then some 3 else none) =
    "see [1, 2, 3].".toList := by
  have h := c1_body_run_numbering
    (fun key => if key = ['a'] then some 1 else if key = ['b'] then some 2
                else if key = ['c'] then some 3 else none)
    ("see ".toList) (".".toList) ['a'] [(([], [' ']), ['b']), (([], [' ']), ['c'])]
    (by decide) (by decide) (by decide) (by decide) (by decide) (by decide) (by decide)
  exact h.trans (by decide)

/-- C3: a run containing at least one identifier missing from the mapping is
left byte-for-byte unmodified: no partial substitution, and no error. -/
theorem c3_unknown_key_run_untouched (m : List Char → Option Nat) (u v k : List Char)
    (ks : List ((List Char × List Char) × List Char))
    (hu : ∀ c ∈ u, c ≠ '<') (hv : ∀ c ∈ v, c ≠ '<')
    (hk : k ≠ []) (hkgt : ∀ c ∈ k, c ≠ '>') (hkst : pyStrip k = k)
    (hks : ∀ e ∈ ks, (∀ c ∈ e.1.1, pyIsSpace c = true) ∧ (∀ c ∈ e.1.2, pyIsSpace c = true) ∧
        e.2 ≠ [] ∧ (∀ c ∈ e.2, c ≠ '>') ∧ pyStrip e.2 = e.2)
    (hmiss : ∃ key ∈ k :: ks.map (fun e => e.2), m key = none) :
    replace_citations (u ++ (mkRun k ks ++ v)) m = u ++ (mkRun k ks ++ v) := by
  unfold replace_citations
  rw [rc_skip hu]
  have hrun := @citeRunAt_run k v ks hk hkgt hv
    (fun e he => ⟨(hks e he).1, (hks e he).2.1, (hks e he).2.2.1, (hks e he).2.2.2.1⟩)
  have hfuel : 0 < (u ++ (mkRun k ks ++ v)).length - u.length := by
    simp only [List.length_append, mkRun, List.length_cons]
    omega
  rw [rc_step hrun hfuel]
  have hmapeq : ((k :: ks.map (fun e => e.2)).map citeKeyOf) = k :: ks.map (fun e => e.2) := by
    simp only [List.map_cons]
    rw [citeKeyOf_eq_self hk hkst,
      map_citeKeyOf_eq (fun e he => ⟨(hks e he).2.2.1, (hks e he).2.2.2.2⟩)]
  simp only [hmapeq]
  have hcond : ¬((k :: ks.map (fun e => e.2)).all (fun key => (m key).isSome) = true) := by
    intro hall
    obtain ⟨key, hmem, hnone⟩ := hmiss
    have := List.all_eq_true.mp hall key hmem
    rw [hnone] at this
    exact absurd this (by simp)
  rw [if_neg hcond, rc_clean hv]

/-- Witness for C3: `<<a>>, <<zzz>>` with zzz unknown stays unchanged. -/
theorem c3_unknown_key_run_untouched_witness :
    replace_citations
      ("see ".toList ++ (mkRun ['a'] [(([], [' ']), ['z', 'z', 'z'])] ++ " end".toList))
      (fun key => if key = ['a'] then some 1 else none) =
    "see <<a>>, <<zzz>> end".toList := by
  have h := c3_unknown_key_run_untouched
    (fun key => if key = ['a'] then some 1 else none)
    ("see ".toList) (" end".toList) ['a'] [(([], [' ']), ['z', 'z', 'z'])]
    (by decide) (by decide) (by decide) (by decide) (by decide) (by decide)
    ⟨['z', 'z', 'z'], by decide, by decide⟩
  exact h.trans (by decide)

/- ------------------------------------------------------------------ -/
/- Lemmas on anchors and key collection                               -/
/- ------------------------------------------------------------------ -/

theorem anchorAt_head {s : List Char} {q : List Char × List Char} (h : anchorAt s = some q) :
    ∃ t, s = '[' :: '[' :: t := by
  unfold anchorAt at h
  split at h
  · rename_i rest
    exact ⟨rest, rfl⟩
  · exact absurd h (by simp)

theorem anchorAt_decomp {s : List Char} {c r : List Char} (h : anchorAt s = some (c, r)) :
    s = '[' :: '[' :: (c ++ ']' :: ']' :: r) ∧ c ≠ [] := by
  unfold anchorAt at h
  split at h
  · rename_i rest
    by_cases hc : rest.takeWhile (fun c => c ≠ ']') = []
    · rw [if_pos hc] at h; exact absurd h (by simp)
    · rw [if_neg hc] at h
      split at h
      · rename_i r2 hdw
        have hs : rest.takeWhile (fun c => c ≠ ']') ++ rest.dropWhile (fun c => c ≠ ']') = rest :=
          List.takeWhile_append_dropWhile _ _
        injection h with h'
        injection h' with hcc hrr
        have hrest : rest = c ++ ']' :: ']' :: r := by
          rw [← hs, hdw, hcc, hrr]
        constructor
        · rw [hrest]
        · rw [← hcc]; exact hc
      · exact absurd h (by simp)
  · exact absurd h (by simp)

theorem findAnchor_decomp : ∀ {line pre k suf : List Char},
    findAnchor line = some (pre, k, suf) →
    line = pre ++ ('[' :: '[' :: (k ++ ']' :: ']' :: suf)) ∧ k ≠ [] := by
  intro line
  induction line with
  | nil => intro pre k suf h; simp [findAnchor] at h
  | cons c cs ih =>
    intro pre k suf h
    simp only [findAnchor] at h
    cases ha : anchorAt (c :: cs) with
    | some q =>
      obtain ⟨q1, q2⟩ := q
      rw [ha] at h
      injection h with h'
      injection h' with h1 h'
      injection h' with h2 h3
      obtain ⟨hdec, hne⟩ := anchorAt_decomp ha
      subst h1; subst h2; subst h3
      exact ⟨by simpa using hdec, hne⟩
    | none =>
      rw [ha] at h
      cases hf : findAnchor cs with
      | none => rw [hf] at h; simp at h
      | some p =>
        obtain ⟨p1, p2, p3⟩ := p
        rw [hf] at h
        simp only [Option.map_some'] at h
        injection h with h'
        injection h' with h1 h'
        injection h' with h2 h3
        obtain ⟨hdec, hne⟩ := ih hf
        subst h1; subst h2; subst h3
        constructor
        · rw [List.cons_append, ← hdec]
        · exact hne

theorem findAnchor_leftmost : ∀ {line pre k suf : List Char},
    findAnchor line = some (pre, k, suf) →
    ∀ j, j < pre.length → anchorAt (line.drop j) = none := by
  intro line
  induction line with
  | nil => intro pre k suf h; simp [findAnchor] at h
  | cons c cs ih =>
    intro pre k suf h
    simp only [findAnchor] at h
    cases ha : anchorAt (c :: cs) with
    | some q =>
      obtain ⟨q1, q2⟩ := q
      rw [ha] at h
      injection h with h'
      injection h' with h1 h'
      subst h1
      intro j hj
      simp at hj
    | none =>
      rw [ha] at h
      cases hf : findAnchor cs with
      | none => rw [hf] at h; simp at h
      | some p =>
        obtain ⟨p1, p2, p3⟩ := p
        rw [hf] at h
        simp only [Option.map_some'] at h
        injection h with h'
        injection h' with h1 h'
        injection h' with h2 h3
        subst h1
        intro j hj
        cases j with
        | zero => exact ha
        | succ j' =>
          have hj' : j' < p1.length := by simpa using hj
          simpa using ih hf j' hj'

theorem mem_specFO : ∀ (L : List (List Char)) (x : List Char),
    x ∈ specFirstOccurrences L → x ∈ L := by
  intro L
  induction L using specFirstOccurrences.induct with
  | case1 => intro x hx; simp [specFirstOccurrences] at hx
  | case2 k t ih =>
    intro x hx
    rw [specFirstOccurrences] at hx
    rcases List.mem_cons.mp hx with h | h
    · simp [h]
    · have := ih x h
      exact List.mem_cons_of_mem _ (List.mem_of_mem_filter this)

theorem nodup_specFO : ∀ (L : List (List Char)), (specFirstOccurrences L).Nodup := by
  intro L
  induction L using specFirstOccurrences.induct with
  | case1 => simp [specFirstOccurrences]
  | case2 k t ih =>
    rw [specFirstOccurrences]
    refine List.nodup_cons.mpr ⟨?_, ih⟩
    intro hk
    have := mem_specFO _ _ hk
    have := List.of_mem_filter this
    simp at this

theorem filter_not_mem_concat (L acc : List (List Char)) (key : List Char) :
    L.filter (fun x => decide (x ∉ acc ++ [key])) =
      (L.filter (fun x => decide (x ∉ acc))).filter (fun x => decide (x ≠ key)) := by
  rw [List.filter_filter]
  apply List.filter_congr
  intro x _
  by_cases h1 : x = key <;> by_cases h2 : x ∈ acc <;> simp [h1, h2]

theorem parseKeysGo_eq : ∀ (lines : List (List Char)) (acc : List (List Char)),
    parseKeysGo acc lines =
      acc ++ specFirstOccurrences
        ((lines.filterMap (fun l => (findAnchor l).map (fun q => pyStrip q.2.1))).filter
          (fun x => decide (x ∉ acc))) := by
  intro lines
  induction lines with
  | nil => intro acc; simp [parseKeysGo, specFirstOccurrences]
  | cons line rest ih =>
    intro acc
    simp only [parseKeysGo, List.filterMap_cons]
    cases hf : findAnchor line with
    | none => exact ih acc
    | some q =>
      simp only [Option.map_some']
      by_cases hmem : pyStrip q.2.1 ∈ acc
      · rw [if_pos hmem, ih acc]
        simp only [List.filter_cons]
        have : decide (pyStrip q.2.1 ∉ acc) = false := by simp [hmem]
        rw [this]
        simp
      · rw [if_neg hmem, ih (acc ++ [pyStrip q.2.1])]
        simp only [List.filter_cons]
        have : decide (pyStrip q.2.1 ∉ acc) = true := by simp [hmem]
        rw [this]
        simp only [if_true]
        rw [specFirstOccurrences, filter_not_mem_concat]
        simp [List.append_assoc]

theorem keyToNumGo_rank : ∀ (keys : List (List Char)), keys.Nodup →
    ∀ (i b : Nat), i < keys.length → keyToNumGo (keys.getD i []) keys b = some (b + i) := by
  intro keys
  induction keys with
  | nil => intro _ i b hi; simp at hi
  | cons key rest ih =>
    intro h i b hi
    cases i with
    | zero => simp [keyToNumGo]
    | succ i' =>
      have hiR : i' < rest.length := by simpa using hi
      have hmem : rest.getD i' [] ∈ rest := by
        rw [List.getD_eq_getElem _ _ hiR]
        exact List.getElem_mem hiR
      have hne : key ≠ rest.getD i' [] := by
        intro heq
        exact absurd hmem (by rw [← heq]; exact (List.nodup_cons.mp h).1)
      have hgd : (key :: rest).getD (i' + 1) [] = rest.getD i' [] := List.getD_cons_succ
      rw [hgd]
      show (if key = rest.getD i' [] then some b
            else keyToNumGo (rest.getD i' []) rest (b + 1)) = some (b + (i' + 1))
      rw [if_neg hne, ih (List.nodup_cons.mp h).2 i' (b + 1) hiR]
      congr 1
      omega

/-- C2: key collection scans the lines of the references block in order and
records the first occurrence of each distinct (stripped) anchor identifier;
later occurrences are ignored; the rank of the i-th collected key is `i + 1`,
determined only by first-appearance order within the references block (the
collection is a function of the references block alone, never of the body). -/
theorem c2_first_occurrence_ranks (refs : List Char) :
    parse_reference_keys refs = specFirstOccurrences (anchorKeysOf refs) ∧
    (parse_reference_keys refs).Nodup ∧
    (∀ i, i < (parse_reference_keys refs).length →
      keyToNum (parse_reference_keys refs) ((parse_reference_keys refs).getD i []) =
        some (i + 1)) := by
  have hbr : parse_reference_keys refs = specFirstOccurrences (anchorKeysOf refs) := by
    unfold parse_reference_keys anchorKeysOf
    rw [parseKeysGo_eq]
    simp only [List.nil_append]
    congr 1
    apply List.filter_eq_self.mpr
    intro x _
    simp
  refine ⟨hbr, ?_, ?_⟩
  · rw [hbr]; exact nodup_specFO _
  · intro i hi
    unfold keyToNum
    rw [keyToNumGo_rank _ (by rw [hbr]; exact nodup_specFO _) i 1 hi]
    congr 1
    omega

/-- Witness for C2: in a block defining `a`, `b`, then `a` again, the keys are
`[a, b]` and the key at index 1 has rank 2. -/
theorem c2_first_occurrence_ranks_witness :
    parse_reference_keys "== References\n* [[a]] A\n* [[b]] B\n* [[a]] dup\n".toList =
      specFirstOccurrences (anchorKeysOf "== References\n* [[a]] A\n* [[b]] B\n* [[a]] dup\n".toList) ∧
    keyToNum (parse_reference_keys "== References\n* [[a]] A\n* [[b]] B\n* [[a]] dup\n".toList)
      ((parse_reference_keys "== References\n* [[a]] A\n* [[b]] B\n* [[a]] dup\n".toList).getD 1 []) =
      some 2 := by
  refine ⟨(c2_first_occurrence_ranks _).1, ?_⟩
  exact (c2_first_occurrence_ranks
    "== References\n* [[a]] A\n* [[b]] B\n* [[a]] dup\n".toList).2.2 1 (by decide)

/-- C7: in the references-block rewrite, each line's leftmost anchor marker -
and only the marker - is replaced by the bracketed rank of its stripped key
(the line around it is kept), lines without an anchor are copied unchanged,
and the transformer's final output is the rewritten body, the rewritten
references block, and the unchanged trailing block, concatenated. -/
theorem c7_references_frame (keys : List (List Char))
    (refs text line pre k suf before2 refs2 after2 : List Char) :
    (findAnchor line = none → renumberLine (keyToNum keys) line = line) ∧
    (findAnchor line = some (pre, k, suf) →
      line = pre ++ ('[' :: '[' :: (k ++ ']' :: ']' :: suf)) ∧
      (∀ j, j < pre.length → anchorAt (line.drop j) = none) ∧
      renumberLine (keyToNum keys) line =
        (match keyToNum keys (pyStrip k) with
         | none => line
         | some n => pre ++ ('[' :: (numToChars n ++ ']' :: suf)))) ∧
    renumber_references refs keys =
      List.intercalate ['\n'] ((pySplitlines refs).map (renumberLine (keyToNum keys))) ∧
    (split_sections text = (before2, refs2, after2) → refs2 ≠ [] →
      renumberDoc text =
        replace_citations before2 (keyToNum (parse_reference_keys refs2)) ++
          (renumber_references refs2 (parse_reference_keys refs2) ++ after2)) := by
  refine ⟨?_, ?_, rfl, ?_⟩
  · intro h; unfold renumberLine; rw [h]
  · intro h
    obtain ⟨hdec, _⟩ := findAnchor_decomp h
    refine ⟨hdec, findAnchor_leftmost h, ?_⟩
    unfold renumberLine
    rw [h]
  · intro hsp hne
    unfold renumberDoc
    simp only [hsp]
    rw [if_neg hne]

/-- Witness for C7: the line `* [[a]] First` decomposes around its only anchor
and is rewritten to `* [1] First`. -/
theorem c7_references_frame_witness :
    "* [[a]] First".toList =
      "* ".toList ++ ('[' :: '[' :: (['a'] ++ ']' :: ']' :: " First".toList)) ∧
    (∀ j, j < "* ".toList.length → anchorAt ("* [[a]] First".toList.drop j) = none) ∧
    renumberLine (keyToNum [['a']]) "* [[a]] First".toList =
      (match keyToNum [['a']] (pyStrip ['a']) with
       | none => "* [[a]] First".toList
       | some n => "* ".toList ++ ('[' :: (numToChars n ++ ']' :: " First".toList))) :=
  (c7_references_frame [['a']] [] [] "* [[a]] First".toList "* ".toList ['a'] " First".toList
    [] [] []).2.1 (by decide)

/- ------------------------------------------------------------------ -/
/- Lemmas on the section split                                        -/
/- ------------------------------------------------------------------ -/

theorem findLSGo_decomp {p : List Char → Bool} : ∀ {s a b : List Char},
    findLSGo p s = some (a, b) → s = a ++ b := by
  intro s
  induction s with
  | nil => intro a b h; simp [findLSGo] at h
  | cons c cs ih =>
    intro a b h
    simp only [findLSGo] at h
    split at h
    · injection h with h'
      injection h' with h1 h2
      subst h1; subst h2
      rfl
    · cases hf : findLSGo p cs with
      | none => rw [hf] at h; simp at h
      | some q =>
        obtain ⟨q1, q2⟩ := q
        rw [hf] at h
        simp only [Option.map_some'] at h
        injection h with h'
        injection h' with h1 h2
        subst h1; subst h2
        have := ih hf
        rw [List.cons_append, ← this]

theorem findLineStart_decomp {p : List Char → Bool} {s a b : List Char}
    (h : findLineStart p s = some (a, b)) : s = a ++ b := by
  unfold findLineStart at h
  split at h
  · injection h with h'
    injection h' with h1 h2
    subst h1; subst h2
    rfl
  · exact findLSGo_decomp h

/-- C10: the three segments returned by the section split concatenate to
exactly the original input; no character is dropped, duplicated or moved. -/
theorem c10_split_sections_concat (text : List Char) :
    (split_sections text).1 ++ ((split_sections text).2.1 ++ (split_sections text).2.2) =
      text := by
  unfold split_sections
  cases h1 : findLineStart refsHeadingAt text with
  | none => simp
  | some q =>
    obtain ⟨before, rest⟩ := q
    have hd1 : text = before ++ rest := findLineStart_decomp h1
    simp only [h1]
    cases rest with
    | nil => simpa using hd1.symm
    | cons r0 rtail =>
      cases h2 : findLineStart nextHeadingAt rtail with
      | none =>
        simp only [h2]
        simpa using hd1.symm
      | some q2 =>
        obtain ⟨mid, after⟩ := q2
        have hd2 : rtail = mid ++ after := findLineStart_decomp h2
        simp only [h2]
        rw [hd1, hd2]
        simp

/- ------------------------------------------------------------------ -/
/- Lemmas for the no-heading passthrough                              -/
/- ------------------------------------------------------------------ -/

theorem splitNL_head : ∀ (s : List Char),
    ∃ ls, splitNL s = s.takeWhile (fun c => c ≠ '\n') :: ls := by
  intro s
  induction s with
  | nil => exact ⟨[], rfl⟩
  | cons c cs ih =>
    by_cases hc : c = '\n'
    · subst hc
      refine ⟨splitNL cs, ?_⟩
      simp [splitNL]
    · obtain ⟨ls, hls⟩ := ih
      refine ⟨ls, ?_⟩
      simp only [splitNL, if_neg hc, hls]
      simp [List.takeWhile_cons, hc]

theorem refsHeadingAt_line (s : List Char) :
    refsHeadingAt s = lineIsRefsHeading (s.takeWhile (fun c => c ≠ '\n')) := by
  unfold refsHeadingAt lineIsRefsHeading
  cases h : expect refsHeadingLit s with
  | some rest =>
    have hs : s = refsHeadingLit ++ rest := expect_eq_some h
    have htw : s.takeWhile (fun c => c ≠ '\n') =
        refsHeadingLit ++ rest.takeWhile (fun c => c ≠ '\n') := by
      rw [hs]; exact takeWhile_append_all _ (by decide)
    rw [htw, expect_append]
  | none =>
    cases h2 : expect refsHeadingLit (s.takeWhile (fun c => c ≠ '\n')) with
    | none => rfl
    | some r2 =>
      have hdec := expect_eq_some h2
      have hs : s = refsHeadingLit ++ (r2 ++ s.dropWhile (fun c => c ≠ '\n')) := by
        conv_lhs => rw [← List.takeWhile_append_dropWhile (fun c => decide (c ≠ '\n')) s]
        rw [hdec, List.append_assoc]
      rw [hs, expect_append] at h
      exact absurd h (by simp)

theorem findLSGo_refs_none : ∀ (s : List Char),
    (∀ l ∈ (splitNL s).tail, lineIsRefsHeading l = false) →
    findLSGo refsHeadingAt s = none := by
  intro s
  induction s with
  | nil => intro _; rfl
  | cons c cs ih =>
    intro h
    have htail : ∀ l ∈ (splitNL cs).tail, lineIsRefsHeading l = false := by
      intro l hl
      apply h
      by_cases hcn : c = '\n'
      · subst hcn
        have hsp : splitNL ('\n' :: cs) = [] :: splitNL cs := by simp [splitNL]
        rw [hsp, List.tail_cons]
        exact List.mem_of_mem_tail hl
      · obtain ⟨ls, hls⟩ := splitNL_head cs
        have hsp : splitNL (c :: cs) = (c :: cs.takeWhile (fun x => x ≠ '\n')) :: ls := by
          simp only [splitNL, if_neg hcn, hls]
        rw [hsp, List.tail_cons]
        rw [hls, List.tail_cons] at hl
        exact hl
    simp only [findLSGo]
    split
    · rename_i hcond
      exfalso
      have hcn : c = '\n' := by
        by_contra hne
        simp [hne] at hcond
      subst hcn
      have hhat : refsHeadingAt cs = true := by
        simpa using hcond
      have hfalse : refsHeadingAt cs = false := by
        rw [refsHeadingAt_line]
        apply h
        have hsp : splitNL ('\n' :: cs) = [] :: splitNL cs := by simp [splitNL]
        rw [hsp, List.tail_cons]
        obtain ⟨ls, hls⟩ := splitNL_head cs
        rw [hls]
        exact List.mem_cons_self _ _
      rw [hhat] at hfalse
      exact absurd hfalse (by simp)
    · rw [ih htail]
      rfl

/-- C8: an input with no line that is exactly a top-level References heading
(the heading literal followed only by whitespace) passes through the Reference
Numbering Transformer unchanged - an identity transform, not an error. -/
theorem c8_no_heading_passthrough (text : List Char)
    (h : ∀ l ∈ splitNL text, lineIsRefsHeading l = false) :
    renumberDoc text = text := by
  have h0 : refsHeadingAt text = false := by
    rw [refsHeadingAt_line]
    obtain ⟨ls, hls⟩ := splitNL_head text
    exact h _ (by rw [hls]; exact List.mem_cons_self _ _)
  have hfind : findLineStart refsHeadingAt text = none := by
    unfold findLineStart
    rw [h0]
    simp only [Bool.false_eq_true, if_false]
    exact findLSGo_refs_none text (fun l hl => h l (List.mem_of_mem_tail hl))
  unfold renumberDoc split_sections
  rw [hfind]
  rfl

/-- Witness for C8: a two-line document without a References heading is
returned unchanged. -/
theorem c8_no_heading_passthrough_witness :
    renumberDoc "hello\nworld".toList = "hello\nworld".toList :=
  c8_no_heading_passthrough "hello\nworld".toList (by decide)

/-- C4 (code bug): the transformer is not idempotent.  `renumber_references`
rejoins `refs.splitlines()` with `"\n"`, dropping the references block's
trailing newline, so a following section heading is glued onto the last
references line; on the input below the first run produces
`"== References\nfoo== Z\nbar\n"` and a second run then differs from it
(it drops the final newline as well). -/
theorem c4_not_idempotent_eval :
    renumberDoc "== References\nfoo\n== Z\nbar\n".toList =
      "== References\nfoo== Z\nbar\n".toList ∧
    renumberDoc (renumberDoc "== References\nfoo\n== Z\nbar\n".toList) ≠
      renumberDoc "== References\nfoo\n== Z\nbar\n".toList := by
  constructor
  · decide
  · decide

/- ------------------------------------------------------------------ -/
/- Lemmas on the fix_cites substitution scan                          -/
/- ------------------------------------------------------------------ -/

theorem expect_cons_ne {p c : Char} {ps cs : List Char} (h : c ≠ p) :
    expect (p :: ps) (c :: cs) = none := by
  simp [expect, h]

theorem expect_cons_eq (p : Char) (ps cs : List Char) :
    expect (p :: ps) (p :: cs) = expect ps cs := by
  simp [expect]

theorem subScanF_clean {f : List Char → Option (List Char × List Char)}
    (hhead : ∀ s q, f s = some q → ∃ t, s = '\\' :: t)
    {s : List Char} (hs : ∀ c ∈ s, c ≠ '\\') : ∀ n, subScanF f n s = s := by
  induction s with
  | nil => intro n; cases n <;> rfl
  | cons c cs ih =>
    intro n
    cases n with
    | zero => rfl
    | succ n' =>
      simp only [subScanF]
      cases hq : f (c :: cs) with
      | some q =>
        obtain ⟨t, ht⟩ := hhead _ _ hq
        injection ht with h1 _
        exact absurd h1 (hs c (List.mem_cons_self _ _))
      | none =>
        show c :: subScanF f n' cs = c :: cs
        rw [ih (fun x hx => hs x (List.mem_cons_of_mem _ hx)) n']

theorem subScanF_skip {f : List Char → Option (List Char × List Char)}
    (hhead : ∀ s q, f s = some q → ∃ t, s = '\\' :: t)
    {u : List Char} (hu : ∀ c ∈ u, c ≠ '\\') :
    ∀ (n : Nat) (w : List Char),
    subScanF f n (u ++ w) = u ++ subScanF f (n - u.length) w := by
  induction u with
  | nil => intro n w; simp
  | cons c u' ih =>
    intro n w
    cases n with
    | zero =>
      show (c :: u' ++ w) = (c :: u') ++ subScanF f (0 - (c :: u').length) w
      rw [Nat.zero_sub]
      rfl
    | succ n' =>
      simp only [List.cons_append, List.length_cons, Nat.succ_sub_succ, subScanF]
      cases hq : f (c :: (u' ++ w)) with
      | some q =>
        obtain ⟨t, ht⟩ := hhead _ _ hq
        injection ht with h1 _
        exact absurd h1 (hu c (List.mem_cons_self _ _))
      | none =>
        show c :: subScanF f n' (u' ++ w) = c :: (u' ++ subScanF f (n' - u'.length) w)
        rw [ih (fun x hx => hu x (List.mem_cons_of_mem _ hx)) n' w]

theorem subScanF_stepNone {f : List Char → Option (List Char × List Char)}
    {c : Char} {cs : List Char} (h : f (c :: cs) = none) (n : Nat) :
    subScanF f n (c :: cs) = c :: subScanF f (n - 1) cs := by
  cases n with
  | zero => rfl
  | succ n' =>
    simp only [subScanF, Nat.succ_sub_one]
    rw [h]

theorem subScanF_step {f : List Char → Option (List Char × List Char)}
    {c : Char} {cs r t : List Char} {n : Nat}
    (h : f (c :: cs) = some (r, t)) (hn : 0 < n) :
    subScanF f n (c :: cs) = r ++ subScanF f (n - 1) t := by
  cases n with
  | zero => exact absurd hn (by simp)
  | succ n' =>
    simp only [subScanF, Nat.succ_sub_one]
    rw [h]

theorem subScanF_nomatch {f : List Char → Option (List Char × List Char)}
    {s : List Char} (h : existsMatch f s = false) : ∀ n, subScanF f n s = s := by
  induction s with
  | nil => intro n; cases n <;> rfl
  | cons c cs ih =>
    rw [existsMatch, Bool.or_eq_false_iff] at h
    intro n
    cases n with
    | zero => rfl
    | succ n' =>
      simp only [subScanF]
      cases hq : f (c :: cs) with
      | some q => rw [hq] at h; exact absurd h.1 (by simp)
      | none =>
        show c :: subScanF f n' cs = c :: cs
        rw [ih h.2 n']

theorem p1At_head {s : List Char} {q : List Char × List Char} (h : p1At s = some q) :
    ∃ t, s = '\\' :: t := by
  unfold p1At at h
  cases he : expect textbackslashLit s with
  | none => rw [he] at h; exact absurd h (by simp)
  | some s1 =>
    have hs : s = textbackslashLit ++ s1 := expect_eq_some he
    exact ⟨"textbackslash".toList ++ s1, by rw [hs]; rfl⟩

theorem p2At_head {s : List Char} {q : List Char × List Char} (h : p2At s = some q) :
    ∃ t, s = '\\' :: t := by
  unfold p2At at h
  cases he : expect tbCiteLit s with
  | none => rw [he] at h; exact absurd h (by simp)
  | some s1 =>
    have hs : s = tbCiteLit ++ s1 := expect_eq_some he
    exact ⟨"textbackslash\\cite".toList ++ s1, by rw [hs]; rfl⟩

theorem p3At_head {s : List Char} {q : List Char × List Char} (h : p3At s = some q) :
    ∃ t, s = '\\' :: t := by
  unfold p3At at h
  cases he : expect citeOpenLit s with
  | none => rw [he] at h; exact absurd h (by simp)
  | some s1 =>
    have hs : s = citeOpenLit ++ s1 := expect_eq_some he
    exact ⟨['c', 'i', 't', 'e', '{'] ++ s1, by rw [hs]; rfl⟩

/-- C5 (amended): a document with no occurrence of either escaped-macro
pattern and no occurrence of the residual-backslash cleanup pattern is written
back byte-for-byte unchanged.  (The original claim is falsified by the cleanup
pattern alone, see the counterexample.) -/
theorem c5_no_pattern_no_change (text : List Char)
    (h1 : existsMatch p1At text = false) (h2 : existsMatch p2At text = false)
    (h3 : existsMatch p3At text = false) :
    fix_cites_transform text = text := by
  unfold fix_cites_transform pySub
  rw [subScanF_nomatch h1, subScanF_nomatch h2, subScanF_nomatch h3]

/-- Witness for C5: ordinary text with an intact citation macro is unchanged. -/
theorem c5_no_pattern_no_change_witness :
    fix_cites_transform "see \\cite\x7bok\x7d now".toList = "see \\cite\x7bok\x7d now".toList :=
  c5_no_pattern_no_change "see \\cite\x7bok\x7d now".toList (by decide) (by decide) (by decide)

/-- Counterexample for C5 as stated: `\cite{a\}` contains no escaped-citation
macro (neither escaped-macro pattern matches anywhere), yet the Citation-Escape
Fixer changes it - the unconditional cleanup pass rewrites it to `\cite{a}`. -/
theorem c5_counterexample :
    existsMatch p1At ['\\', 'c', 'i', 't', 'e', '{', 'a', '\\', '}'] = false ∧
    existsMatch p2At ['\\', 'c', 'i', 't', 'e', '{', 'a', '\\', '}'] = false ∧
    fix_cites_transform ['\\', 'c', 'i', 't', 'e', '{', 'a', '\\', '}'] ≠
      ['\\', 'c', 'i', 't', 'e', '{', 'a', '\\', '}'] :=
  ⟨by decide, by decide, by decide⟩

/-- C9: a wrong argument count (not exactly one path for the Citation-Escape
Fixer; more than one argument for the Reference Numbering Transformer) prints
usage to standard error, exits with status 1, and performs no file I/O. -/
theorem c9_usage_errors (argv : List (List Char)) (stdinText : List Char)
    (readF : List Char → List Char) :
    (argv.length ≠ 2 → fix_cites_main argv readF = ⟨1, true, [], [], []⟩) ∧
    (argv.length > 2 → number_citations_main argv stdinText readF = ⟨1, true, [], [], []⟩) := by
  constructor
  · intro h; unfold fix_cites_main; rw [if_pos h]
  · intro h; unfold number_citations_main; rw [if_pos h]

/-- Witness for C9: zero paths for the fixer, two arguments for the
transformer. -/
theorem c9_usage_errors_witness :
    fix_cites_main [['f']] (fun _ => []) = ⟨1, true, [], [], []⟩ ∧
    number_citations_main [['n'], ['a'], ['b']] [] (fun _ => []) = ⟨1, true, [], [], []⟩ :=
  ⟨(c9_usage_errors [['f']] [] (fun _ => [])).1 (by decide),
   (c9_usage_errors [['n'], ['a'], ['b']] [] (fun _ => [])).2 (by decide)⟩

theorem tbLit_eq : textbackslashLit =
    ['\\', 't', 'e', 'x', 't', 'b', 'a', 'c', 'k', 's', 'l', 'a', 's', 'h'] := rfl

theorem tbWord_eq : "textbackslash".toList =
    ['t', 'e', 'x', 't', 'b', 'a', 'c', 'k', 's', 'l', 'a', 's', 'h'] := rfl

theorem tbcLit_eq : tbCiteLit =
    ['\\', 't', 'e', 'x', 't', 'b', 'a', 'c', 'k', 's', 'l', 'a', 's', 'h',
     '\\', 'c', 'i', 't', 'e'] := rfl

theorem cwLit_eq : citeWordLit = ['c', 'i', 't', 'e'] := rfl

theorem braceArg_run {k v stp oePart : List Char} (hk : k ≠ [])
    (hkc : ∀ c ∈ k, c ≠ '}') (hoe : oePart = [] ∨ oePart = ['\\'])
    (hstp : stp = [] ∨ stp = ['\\']) :
    braceArgAt (oePart ++ ('{' :: (k ++ (stp ++ '}' :: v)))) = some (k ++ stp, v) := by
  have hall : ∀ c ∈ k ++ stp, (fun c : Char => decide (c ≠ '}')) c = true := by
    intro c hc
    rcases List.mem_append.mp hc with h | h
    · simpa using hkc c h
    · rcases hstp with he | he <;> subst he
      · simp at h
      · simp at h; subst h; decide
  have hshape : k ++ (stp ++ '}' :: v) = (k ++ stp) ++ '}' :: v :=
    (List.append_assoc _ _ _).symm
  have hg : (k ++ (stp ++ '}' :: v)).takeWhile (fun c => c ≠ '}') = k ++ stp := by
    rw [hshape]; exact takeWhile_append_stop _ hall (by decide)
  have hdw : (k ++ (stp ++ '}' :: v)).dropWhile (fun c => c ≠ '}') = '}' :: v := by
    rw [hshape]; exact dropWhile_append_stop _ hall (by decide)
  have hne : ¬(k ++ stp = []) := fun hemp => hk (List.append_eq_nil.mp hemp).1
  have hbs : expect ['}'] ('}' :: v) = some v := by simp [expect]
  rcases hoe with h | h <;> subst h
  · have h1 : expect ['\\'] ('{' :: (k ++ (stp ++ '}' :: v))) = none :=
      expect_cons_ne (by decide)
    have h2 : expect ['{'] ('{' :: (k ++ (stp ++ '}' :: v))) =
        some (k ++ (stp ++ '}' :: v)) := by simp [expect]
    simp only [List.nil_append, braceArgAt, h1, h2, hg, hdw, hbs, if_neg hne]
  · have h1 : expect ['\\'] ('\\' :: ('{' :: (k ++ (stp ++ '}' :: v)))) =
        some ('{' :: (k ++ (stp ++ '}' :: v))) := by simp [expect]
    have h2 : expect ['{'] ('{' :: (k ++ (stp ++ '}' :: v))) =
        some (k ++ (stp ++ '}' :: v)) := by simp [expect]
    simp only [List.singleton_append, braceArgAt, h1, h2, hg, hdw, hbs, if_neg hne]

theorem p1At_run {sep k v stp oePart : List Char}
    (hsepne : sep ≠ []) (hsepws : ∀ c ∈ sep, pyIsSpace c = true)
    (hk : k ≠ []) (hkc : ∀ c ∈ k, c ≠ '}')
    (hoe : oePart = [] ∨ oePart = ['\\']) (hstp : stp = [] ∨ stp = ['\\']) :
    p1At (escCiteForm sep oePart stp k ++ v) =
      some (citeOpenLit ++ ((k ++ stp) ++ ['}']), v) := by
  have hshape : escCiteForm sep oePart stp k ++ v =
      textbackslashLit ++
        (sep ++ (citeWordLit ++ (oePart ++ ('{' :: (k ++ (stp ++ '}' :: v)))))) := by
    simp [escCiteForm, tbLit_eq, tbWord_eq, List.append_assoc]
  have hcw : citeWordLit ++ (oePart ++ ('{' :: (k ++ (stp ++ '}' :: v)))) =
      'c' :: ("ite".toList ++ (oePart ++ ('{' :: (k ++ (stp ++ '}' :: v))))) := rfl
  have htw : (sep ++ (citeWordLit ++ (oePart ++ ('{' :: (k ++ (stp ++ '}' :: v)))))).takeWhile
        pyIsSpace = sep := by
    rw [hcw]; exact takeWhile_append_stop _ hsepws (by decide)
  have hdw : (sep ++ (citeWordLit ++ (oePart ++ ('{' :: (k ++ (stp ++ '}' :: v)))))).dropWhile
        pyIsSpace = citeWordLit ++ (oePart ++ ('{' :: (k ++ (stp ++ '}' :: v)))) := by
    rw [hcw]; exact dropWhile_append_stop _ hsepws (by decide)
  have hemp : sep.isEmpty = false := by
    cases sep with
    | nil => exact absurd rfl hsepne
    | cons a l => rfl
  have hcond : ¬(((sep ++ (citeWordLit ++ (oePart ++ ('{' :: (k ++ (stp ++ '}' :: v)))))).takeWhile
      pyIsSpace).isEmpty = true) := by
    rw [htw, hemp]
    simp
  rw [hshape]
  unfold p1At
  simp only [expect_append]
  rw [if_neg hcond, hdw]
  simp only [expect_append, braceArg_run hk hkc hoe hstp, Option.map_some']

theorem p2At_run {k v stp oePart : List Char}
    (hk : k ≠ []) (hkc : ∀ c ∈ k, c ≠ '}')
    (hoe : oePart = [] ∨ oePart = ['\\']) (hstp : stp = [] ∨ stp = ['\\']) :
    p2At (escCiteForm ['\\'] oePart stp k ++ v) =
      some (citeOpenLit ++ ((k ++ stp) ++ ['}']), v) := by
  have hshape : escCiteForm ['\\'] oePart stp k ++ v =
      tbCiteLit ++ (oePart ++ ('{' :: (k ++ (stp ++ '}' :: v)))) := by
    simp [escCiteForm, tbcLit_eq, tbWord_eq, cwLit_eq, List.append_assoc]
  rw [hshape]
  unfold p2At
  simp only [expect_append, braceArg_run hk hkc hoe hstp, Option.map_some']

theorem p1At_bs_c (t : List Char) : p1At ('\\' :: 'c' :: t) = none := by
  have h : expect textbackslashLit ('\\' :: 'c' :: t) = none := by
    rw [tbLit_eq]; simp [expect]
  unfold p1At
  rw [h]

theorem p1At_bs_ob (t : List Char) : p1At ('\\' :: '{' :: t) = none := by
  have h : expect textbackslashLit ('\\' :: '{' :: t) = none := by
    rw [tbLit_eq]; simp [expect]
  unfold p1At
  rw [h]

theorem p1At_bs_rb (t : List Char) : p1At ('\\' :: '}' :: t) = none := by
  have h : expect textbackslashLit ('\\' :: '}' :: t) = none := by
    rw [tbLit_eq]; simp [expect]
  unfold p1At
  rw [h]

theorem p2At_bs_c (t : List Char) : p2At ('\\' :: 'c' :: t) = none := by
  have h : expect tbCiteLit ('\\' :: 'c' :: t) = none := by
    rw [tbcLit_eq]; simp [expect]
  unfold p2At
  rw [h]

theorem p2At_bs_ob (t : List Char) : p2At ('\\' :: '{' :: t) = none := by
  have h : expect tbCiteLit ('\\' :: '{' :: t) = none := by
    rw [tbcLit_eq]; simp [expect]
  unfold p2At
  rw [h]

theorem p2At_bs_rb (t : List Char) : p2At ('\\' :: '}' :: t) = none := by
  have h : expect tbCiteLit ('\\' :: '}' :: t) = none := by
    rw [tbcLit_eq]; simp [expect]
  unfold p2At
  rw [h]

theorem p1At_form2_none {oePart stp k v : List Char} :
    p1At (escCiteForm ['\\'] oePart stp k ++ v) = none := by
  have hshape : escCiteForm ['\\'] oePart stp k ++ v =
      textbackslashLit ++
        ('\\' :: (citeWordLit ++ (oePart ++ ('{' :: (k ++ (stp ++ '}' :: v)))))) := by
    simp [escCiteForm, tbLit_eq, tbWord_eq, List.append_assoc]
  rw [hshape]
  unfold p1At
  simp only [expect_append]
  have htw : (('\\' : Char) :: (citeWordLit ++ (oePart ++ ('{' :: (k ++ (stp ++ '}' :: v)))))).takeWhile
      pyIsSpace = [] := by
    rw [List.takeWhile_cons]
    rw [show pyIsSpace '\\' = false from rfl]
    simp
  rw [if_pos (by rw [htw]; rfl)]

theorem p3At_nostray {k v : List Char} (hk : k ≠ []) (hkc : ∀ c ∈ k, c ≠ '}')
    (hkbs : ∀ c ∈ k, c ≠ '\\') :
    p3At (citeOpenLit ++ (k ++ '}' :: v)) = none := by
  unfold p3At
  simp only [expect_append]
  have hg : (k ++ '}' :: v).takeWhile (fun c => c ≠ '}') = k :=
    takeWhile_append_stop _ (by intro c hc; simpa using hkc c hc) (by decide)
  have hlast : ¬(k.getLast? = some '\\') := by
    intro h
    have hm : '\\' ∈ k := by
      cases k with
      | nil => simp at h
      | cons a l =>
        rw [List.getLast?_eq_getLast (a :: l) (by simp)] at h
        injection h with h'
        rw [← h']
        exact List.getLast_mem _
    exact absurd rfl (hkbs '\\' hm)
  simp only [hg]
  rw [if_neg hlast]

theorem p3At_stray {k v : List Char} (hkc : ∀ c ∈ k, c ≠ '}') :
    p3At (citeOpenLit ++ (k ++ ('\\' :: '}' :: v))) =
      some (citeOpenLit ++ (k ++ ['}']), v) := by
  unfold p3At
  simp only [expect_append]
  have hall : ∀ c ∈ k ++ ['\\'], (fun c : Char => decide (c ≠ '}')) c = true := by
    intro c hc
    rcases List.mem_append.mp hc with h | h
    · simpa using hkc c h
    · simp at h; subst h; decide
  have hshape : k ++ ('\\' :: '}' :: v) = (k ++ ['\\']) ++ '}' :: v := by
    simp [List.append_assoc]
  have hg : (k ++ ('\\' :: '}' :: v)).takeWhile (fun c => c ≠ '}') = k ++ ['\\'] := by
    rw [hshape]; exact takeWhile_append_stop _ hall (by decide)
  have hdw : (k ++ ('\\' :: '}' :: v)).dropWhile (fun c => c ≠ '}') = '}' :: v := by
    rw [hshape]; exact dropWhile_append_stop _ hall (by decide)
  have hlast : (k ++ ['\\']).getLast? = some '\\' := List.getLast?_concat _
  have hbs : expect ['}'] ('}' :: v) = some v := by simp [expect]
  simp only [hg, hdw]
  rw [if_pos hlast]
  simp only [hbs, List.dropLast_concat]

theorem fuel_pos {u w : List Char} (hw : w ≠ []) : 0 < (u ++ w).length - u.length := by
  rw [List.length_append, Nat.add_sub_cancel_left]
  exact List.length_pos.mpr hw

theorem pass1_form1 {u v sep oePart stp k : List Char}
    (hu : ∀ c ∈ u, c ≠ '\\') (hv : ∀ c ∈ v, c ≠ '\\')
    (hsepne : sep ≠ []) (hsepws : ∀ c ∈ sep, pyIsSpace c = true)
    (hk : k ≠ []) (hkc : ∀ c ∈ k, c ≠ '}')
    (hoe : oePart = [] ∨ oePart = ['\\']) (hstp : stp = [] ∨ stp = ['\\']) :
    pySub p1At (u ++ (escCiteForm sep oePart stp k ++ v)) =
      u ++ (citeOpenLit ++ ((k ++ stp) ++ ('}' :: v))) := by
  unfold pySub
  rw [subScanF_skip (fun s q h => p1At_head h) hu]
  congr 1
  have hm := p1At_run hsepne hsepws hk hkc hoe hstp (v := v)
  have hcons : escCiteForm sep oePart stp k ++ v =
      '\\' :: ("textbackslash".toList ++
        (sep ++ (citeWordLit ++ (oePart ++ ('{' :: (k ++ (stp ++ '}' :: v))))))) := by
    simp [escCiteForm, List.append_assoc]
  rw [hcons] at hm ⊢
  rw [subScanF_step hm (fuel_pos (by simp))]
  rw [subScanF_clean (fun s q h => p1At_head h) hv]
  simp [List.append_assoc]

theorem pass1_form2 {u v oePart stp k : List Char}
    (hu : ∀ c ∈ u, c ≠ '\\') (hv : ∀ c ∈ v, c ≠ '\\')
    (hkbs : ∀ c ∈ k, c ≠ '\\')
    (hoe : oePart = [] ∨ oePart = ['\\']) (hstp : stp = [] ∨ stp = ['\\']) :
    pySub p1At (u ++ (escCiteForm ['\\'] oePart stp k ++ v)) =
      u ++ (escCiteForm ['\\'] oePart stp k ++ v) := by
  unfold pySub
  rw [subScanF_skip (fun s q h => p1At_head h) hu]
  congr 1
  have hm := @p1At_form2_none oePart stp k v
  have hcons : escCiteForm ['\\'] oePart stp k ++ v =
      '\\' :: ("textbackslash".toList ++
        ('\\' :: (citeWordLit ++ (oePart ++ ('{' :: (k ++ (stp ++ '}' :: v))))))) := by
    simp [escCiteForm, List.append_assoc]
  rw [hcons] at hm ⊢
  rw [subScanF_stepNone hm]
  congr 1
  rw [subScanF_skip (fun s q h => p1At_head h) (by decide)]
  congr 1
  rw [subScanF_stepNone (by exact p1At_bs_c _)]
  congr 1
  rw [subScanF_skip (fun s q h => p1At_head h) (by decide)]
  congr 1
  rcases hoe with h | h <;> subst h
  · simp only [List.nil_append]
    rw [show ('{' : Char) :: (k ++ (stp ++ '}' :: v)) =
        ('{' :: k) ++ (stp ++ '}' :: v) from rfl]
    rw [subScanF_skip (fun s q h => p1At_head h)
      (by intro c hc; rcases List.mem_cons.mp hc with h | h
          · subst h; decide
          · exact hkbs c h)]
    congr 1
    rcases hstp with h | h <;> subst h
    · simp only [List.nil_append]
      exact subScanF_clean (fun s q h => p1At_head h)
        (by intro c hc; rcases List.mem_cons.mp hc with h | h
            · subst h; decide
            · exact hv c h) _
    · simp only [List.singleton_append]
      rw [subScanF_stepNone (by exact p1At_bs_rb _)]
      congr 1
      exact subScanF_clean (fun s q h => p1At_head h)
        (by intro c hc; rcases List.mem_cons.mp hc with h | h
            · subst h; decide
            · exact hv c h) _
  · simp only [List.singleton_append]
    rw [subScanF_stepNone (by exact p1At_bs_ob _)]
    congr 1
    rw [show ('{' : Char) :: (k ++ (stp ++ '}' :: v)) =
        ('{' :: k) ++ (stp ++ '}' :: v) from rfl]
    rw [subScanF_skip (fun s q h => p1At_head h)
      (by intro c hc; rcases List.mem_cons.mp hc with h | h
          · subst h; decide
          · exact hkbs c h)]
    congr 1
    rcases hstp with h | h <;> subst h
    · simp only [List.nil_append]
      exact subScanF_clean (fun s q h => p1At_head h)
        (by intro c hc; rcases List.mem_cons.mp hc with h | h
            · subst h; decide
            · exact hv c h) _
    · simp only [List.singleton_append]
      rw [subScanF_stepNone (by exact p1At_bs_rb _)]
      congr 1
      exact subScanF_clean (fun s q h => p1At_head h)
        (by intro c hc; rcases List.mem_cons.mp hc with h | h
            · subst h; decide
            · exact hv c h) _

theorem pass2_id {u v stp k : List Char}
    (hu : ∀ c ∈ u, c ≠ '\\') (hv : ∀ c ∈ v, c ≠ '\\')
    (hkbs : ∀ c ∈ k, c ≠ '\\') (hstp : stp = [] ∨ stp = ['\\']) :
    pySub p2At (u ++ (citeOpenLit ++ ((k ++ stp) ++ ('}' :: v)))) =
      u ++ (citeOpenLit ++ ((k ++ stp) ++ ('}' :: v))) := by
  unfold pySub
  rw [subScanF_skip (fun s q h => p2At_head h) hu]
  congr 1
  have hre : citeOpenLit ++ ((k ++ stp) ++ ('}' :: v)) =
      '\\' :: ((['c', 'i', 't', 'e', '{'] ++ k) ++ (stp ++ ('}' :: v))) := by
    simp [citeOpenLit, List.append_assoc]
  rw [hre]
  rw [subScanF_stepNone
    (by exact p2At_bs_c ((['i', 't', 'e', '{'] ++ k) ++ (stp ++ ('}' :: v))))]
  congr 1
  rw [subScanF_skip (fun s q h => p2At_head h)
    (by intro c hc; rcases List.mem_append.mp hc with h | h
        · rcases (by simpa using h : c = 'c' ∨ c = 'i' ∨ c = 't' ∨ c = 'e' ∨ c = '{') with
            h | h | h | h | h <;> subst h <;> decide
        · exact hkbs c h)]
  congr 1
  rcases hstp with h | h <;> subst h
  · simp only [List.nil_append]
    exact subScanF_clean (fun s q h => p2At_head h)
      (by intro c hc; rcases List.mem_cons.mp hc with h | h
          · subst h; decide
          · exact hv c h) _
  · simp only [List.singleton_append]
    rw [subScanF_stepNone (by exact p2At_bs_rb _)]
    congr 1
    exact subScanF_clean (fun s q h => p2At_head h)
      (by intro c hc; rcases List.mem_cons.mp hc with h | h
          · subst h; decide
          · exact hv c h) _

theorem pass2_form2 {u v oePart stp k : List Char}
    (hu : ∀ c ∈ u, c ≠ '\\') (hv : ∀ c ∈ v, c ≠ '\\')
    (hk : k ≠ []) (hkc : ∀ c ∈ k, c ≠ '}')
    (hoe : oePart = [] ∨ oePart = ['\\']) (hstp : stp = [] ∨ stp = ['\\']) :
    pySub p2At (u ++ (escCiteForm ['\\'] oePart stp k ++ v)) =
      u ++ (citeOpenLit ++ ((k ++ stp) ++ ('}' :: v))) := by
  unfold pySub
  rw [subScanF_skip (fun s q h => p2At_head h) hu]
  congr 1
  have hm := p2At_run hk hkc hoe hstp (v := v)
  have hcons : escCiteForm ['\\'] oePart stp k ++ v =
      '\\' :: ("textbackslash".toList ++
        ('\\' :: (citeWordLit ++ (oePart ++ ('{' :: (k ++ (stp ++ '}' :: v))))))) := by
    simp [escCiteForm, List.append_assoc]
  rw [hcons] at hm ⊢
  rw [subScanF_step hm (fuel_pos (by simp))]
  rw [subScanF_clean (fun s q h => p2At_head h) hv]
  simp [List.append_assoc]

theorem pass3_run {u v stp k : List Char}
    (hu : ∀ c ∈ u, c ≠ '\\') (hv : ∀ c ∈ v, c ≠ '\\')
    (hk : k ≠ []) (hkc : ∀ c ∈ k, c ≠ '}') (hkbs : ∀ c ∈ k, c ≠ '\\')
    (hstp : stp = [] ∨ stp = ['\\']) :
    pySub p3At (u ++ (citeOpenLit ++ ((k ++ stp) ++ ('}' :: v)))) =
      u ++ (citeOpenLit ++ (k ++ ('}' :: v))) := by
  unfold pySub
  rw [subScanF_skip (fun s q h => p3At_head h) hu]
  congr 1
  rcases hstp with h | h <;> subst h
  · simp only [List.append_nil]
    have hm := p3At_nostray hk hkc hkbs (v := v)
    rw [show citeOpenLit ++ (k ++ ('}' :: v)) =
        '\\' :: (['c', 'i', 't', 'e', '{'] ++ (k ++ ('}' :: v))) from rfl]
    rw [subScanF_stepNone (by exact hm)]
    congr 1
    exact subScanF_clean (fun s q h => p3At_head h)
      (by intro c hc
          rcases List.mem_append.mp hc with h | h
          · rcases (by simpa using h : c = 'c' ∨ c = 'i' ∨ c = 't' ∨ c = 'e' ∨ c = '{') with
              h | h | h | h | h <;> subst h <;> decide
          · rcases List.mem_append.mp h with h | h
            · exact hkbs c h
            · rcases List.mem_cons.mp h with h | h
              · subst h; decide
              · exact hv c h) _
  · have hre : (k ++ ['\\']) ++ ('}' :: v) = k ++ ('\\' :: ('}' :: v)) := by
      simp [List.append_assoc]
    rw [hre]
    have hm := p3At_stray hkc (v := v)
    rw [show citeOpenLit ++ (k ++ ('\\' :: ('}' :: v))) =
        '\\' :: (['c', 'i', 't', 'e', '{'] ++ (k ++ ('\\' :: ('}' :: v)))) from rfl]
    rw [subScanF_step
      (show p3At ('\\' :: (['c', 'i', 't', 'e', '{'] ++ (k ++ ('\\' :: ('}' :: v))))) =
          some (citeOpenLit ++ (k ++ ['}']), v) from hm)
      (fuel_pos (by simp))]
    rw [subScanF_clean (fun s q h => p3At_head h) hv]
    simp [List.append_assoc]

/-- C6: every well-formed escaped macro `ESC cite{key}` or `ESC\cite{key}`,
with or without a stray escape before either brace, is rewritten to exactly
`\cite{key}`, and the surrounding text (backslash-free on both sides) is
unchanged. -/
theorem c6_escaped_macro_rewrite (u v sep oePart stp k : List Char)
    (hu : ∀ c ∈ u, c ≠ '\\') (hv : ∀ c ∈ v, c ≠ '\\')
    (hk : k ≠ []) (hkbs : ∀ c ∈ k, c ≠ '\\') (hkc : ∀ c ∈ k, c ≠ '}')
    (hsep : (sep ≠ [] ∧ ∀ c ∈ sep, pyIsSpace c = true) ∨ sep = ['\\'])
    (hoe : oePart = [] ∨ oePart = ['\\']) (hstp : stp = [] ∨ stp = ['\\']) :
    fix_cites_transform (u ++ (escCiteForm sep oePart stp k ++ v)) =
      u ++ (citeOpenLit ++ (k ++ ('}' :: v))) := by
  unfold fix_cites_transform
  rcases hsep with ⟨hne, hws⟩ | hbs
  · rw [pass1_form1 hu hv hne hws hk hkc hoe hstp]
    rw [pass2_id hu hv hkbs hstp]
    exact pass3_run hu hv hk hkc hkbs hstp
  · subst hbs
    rw [pass1_form2 hu hv hkbs hoe hstp]
    rw [pass2_form2 hu hv hk hkc hoe hstp]
    exact pass3_run hu hv hk hkc hkbs hstp

/-- Witness for C6: `pre \textbackslash cite{key\} post` becomes
`pre \cite{key} post`. -/
theorem c6_escaped_macro_rewrite_witness :
    fix_cites_transform
      ("pre ".toList ++ (escCiteForm [' '] [] ['\\'] "key".toList ++ " post".toList)) =
      "pre ".toList ++ (citeOpenLit ++ ("key".toList ++ ('}' :: " post".toList))) :=
  c6_escaped_macro_rewrite "pre ".toList " post".toList [' '] [] ['\\'] "key".toList
    (by decide) (by decide) (by decide) (by decide) (by decide)
    (Or.inl ⟨by decide, by decide⟩) (by decide) (by decide)
